import Mathlib

/-
Verification of the cloud-flare-image-handler metadata cache and
duplicate-detection layer.

The development shallowly embeds the core modules:
  - src/utils/cloudflareMetadata.ts  (metadata normalizer)
  - src/utils/urlNormalization.ts    (URL normalizer)
  - src/server/duplicateDetector.ts and its sibling detector module
    (duplicate detector)
  - the in-process image cache contract (modelled from the design spec,
    since its implementation file is not part of the sources at hand).

JavaScript dynamic values are embedded as the inductive type JsValue.
JavaScript strings are embedded as Lean String; the platform string
operations used by the code (trim, toLowerCase) are embedded as explicit
functions on the underlying character lists, restricted to ASCII case
mapping.  The WHATWG URL parser used via `new URL(...)` is platform code,
not repository code; it is embedded as parseURLChars, a parser for
hierarchical scheme://host[:port]path[?query][#fragment] references that
agrees with the platform parser on the inputs the claims are about
(whitespace-free absolute URLs with a // authority).
-/

namespace CFI

/-! ## JavaScript value embedding -/

/-- A JavaScript runtime value, as far as the metadata code observes it. -/
inductive JsValue where
  | undefined
  | null
  | bool (b : Bool)
  | num (n : Int)
  | str (s : String)
  | arr (elems : List JsValue)
  | obj (fields : List (String × JsValue))

/-- JavaScript truthiness test: the values `!x` accepts. -/
def isFalsy : JsValue → Bool
  | .undefined => true
  | .null => true
  | .bool b => !b
  | .num n => n == 0
  | .str s => s == ""
  | .arr _ => false
  | .obj _ => false

/-- The check `typeof v === 'object' && v !== null`: arrays and plain
objects qualify, `null` does not. -/
def isNonNullObject : JsValue → Bool
  | .arr _ => true
  | .obj _ => true
  | _ => false

/-- Whether a value is the JavaScript `undefined`. -/
def isUndefinedVal : JsValue → Bool
  | .undefined => true
  | _ => false

/-- Property read `m[key]` on an object: `undefined` when the key is
absent. -/
def jsGet (fields : List (String × JsValue)) (key : String) : JsValue :=
  match fields.lookup key with
  | some v => v
  | none => .undefined

/-! ## ASCII string helpers (embedding of the platform string methods) -/

/-- ASCII lower-casing of one character, the effect of
`String.prototype.toLowerCase` on the ASCII range. -/
def lowerChar (c : Char) : Char :=
  if 65 ≤ c.toNat ∧ c.toNat ≤ 90 then Char.ofNat (c.toNat + 32) else c

/-- Lower-case a character list. -/
def lowerChars (l : List Char) : List Char := l.map lowerChar

/-- Embedding of `String.prototype.toLowerCase` (ASCII range). -/
def toLowerJS (s : String) : String := ⟨lowerChars s.data⟩

/-- The whitespace characters `String.prototype.trim` removes (ASCII
subset): space, tab, line feed, carriage return. -/
def isWS (c : Char) : Bool :=
  c.toNat = 32 ∨ c.toNat = 9 ∨ c.toNat = 10 ∨ c.toNat = 13

/-- Strip leading and trailing whitespace from a character list. -/
def trimChars (l : List Char) : List Char :=
  ((l.dropWhile isWS).reverse.dropWhile isWS).reverse

/-- Embedding of `String.prototype.trim`. -/
def trimJS (s : String) : String := ⟨trimChars s.data⟩

/-! ## Metadata normalizer — src/utils/cloudflareMetadata.ts -/

/-- The fixed allow-list `CLOUDFLARE_METADATA_FIELDS`. -/
def CLOUDFLARE_METADATA_FIELDS : List String :=
  ["folder", "tags", "description", "originalUrl", "originalUrlNormalized",
   "contentHash", "altTag", "displayName", "variationParentId",
   "linkedAssetId", "exif", "updatedAt"]

/-- `pickCloudflareMetadata`: copy only the allow-listed keys whose value
is not `undefined`, in allow-list order. -/
def pickCloudflareMetadata (meta : List (String × JsValue)) :
    List (String × JsValue) :=
  CLOUDFLARE_METADATA_FIELDS.foldl
    (fun trimmed key =>
      if isUndefinedVal (jsGet meta key) then trimmed
      else trimmed ++ [(key, jsGet meta key)])
    []

/-- The empty metadata structure `\x7b\x7d`. -/
def emptyMetadata : JsValue := .obj []

/-- `parseCloudflareMetadata(rawMeta)`: falsy input yields the empty
structure; a string is JSON-parsed (a parse throw or a non-object result
degrades to empty); a non-null object is returned as-is; anything else is
empty.  The platform `JSON.parse` is abstracted as the `jsonParse`
argument, returning `none` where the platform function throws. -/
def parseCloudflareMetadata (jsonParse : String → Option JsValue)
    (rawMeta : JsValue) : JsValue :=
  if isFalsy rawMeta then emptyMetadata
  else
    match rawMeta with
    | .str s =>
        match jsonParse s with
        | some parsed => if isNonNullObject parsed then parsed else emptyMetadata
        | none => emptyMetadata
    | .arr elems => .arr elems
    | .obj fields => .obj fields
    | _ => emptyMetadata

/-- `cleanString(value)`: falsy input (absent or empty) is absent; the
trimmed value is absent when empty or equal, case-insensitively, to the
literal text "undefined". -/
def cleanString (value : Option String) : Option String :=
  match value with
  | none => none
  | some s =>
      if s = "" then none
      else
        let trimmed := trimJS s
        if trimmed = "" ∨ toLowerJS trimmed = "undefined" then none
        else some trimmed

/-! ## URL normalizer — src/utils/urlNormalization.ts -/

/-- ASCII letter test. -/
def isAsciiAlpha (c : Char) : Bool :=
  (65 ≤ c.toNat ∧ c.toNat ≤ 90) ∨ (97 ≤ c.toNat ∧ c.toNat ≤ 122)

/-- ASCII digit test. -/
def isAsciiDigit (c : Char) : Bool := 48 ≤ c.toNat ∧ c.toNat ≤ 57

/-- A character allowed after the first character of a URL scheme. -/
def isSchemeChar (c : Char) : Bool :=
  isAsciiAlpha c ∨ isAsciiDigit c ∨ c = '+' ∨ c = '-' ∨ c = '.'

/-- A syntactically valid URL scheme: a letter followed by letters,
digits, '+', '-' or '.'. -/
def validScheme : List Char → Bool
  | [] => false
  | c :: cs => isAsciiAlpha c && cs.all isSchemeChar

/-- Split a character list at the first occurrence of `sep`, which is
removed; `none` when `sep` does not occur. -/
def splitOnFirst (sep : Char) : List Char → Option (List Char × List Char)
  | [] => none
  | c :: cs =>
      if c = sep then some ([], cs)
      else
        match splitOnFirst sep cs with
        | none => none
        | some (a, b) => some (c :: a, b)

/-- The components of a parsed URL that the normalizer reads, mirroring
the platform `URL` object's accessors.  `protocol` carries the trailing
':', `pathname` is empty or starts with '/', `search` is empty or starts
with '?'. -/
structure URLParts where
  protocol : List Char
  hostname : List Char
  port : List Char
  pathname : List Char
  search : List Char
deriving DecidableEq

/-- Split an authority `host[:port]` component; fails on an empty host or
a non-numeric port. -/
def parseAuthority (auth : List Char) : Option (List Char × List Char) :=
  match splitOnFirst ':' auth with
  | none => if auth = [] then none else some (auth, [])
  | some (h, p) =>
      if h = [] then none
      else if p.all isAsciiDigit then some (h, p) else none

/-- Recognize and remove the '//' that introduces an authority. -/
def stripSlashSlash (l : List Char) : Option (List Char) :=
  match l with
  | c1 :: c2 :: rest => if c1 = '/' ∧ c2 = '/' then some rest else none
  | _ => none

/-- Separate an optional query component at the first '?'. -/
def splitQuery (l : List Char) : List Char × Option (List Char) :=
  match splitOnFirst '?' l with
  | none => (l, none)
  | some (a, q) => (a, some q)

/-- Separate an optional path remainder at the first '/'. -/
def splitPath (l : List Char) : List Char × Option (List Char) :=
  match splitOnFirst '/' l with
  | none => (l, none)
  | some (a, t) => (a, some t)

/-- Embedding of the platform WHATWG URL parser (`new URL(...)`),
restricted to whitespace-free absolute references of the hierarchical
form scheme://host[:port]path[?query][#fragment]; `none` models the
parser throwing. -/
def parseURLChars (input : List Char) : Option URLParts :=
  if input.any isWS then none
  else
    match splitOnFirst ':' input with
    | none => none
    | some (scheme, rest) =>
        if validScheme scheme then
          match stripSlashSlash rest with
          | none => none
          | some rest2 =>
              let noFrag := rest2.takeWhile (fun c => c ≠ '#')
              let bq := splitQuery noFrag
              let ap := splitPath bq.1
              match parseAuthority ap.1 with
              | none => none
              | some (host, port) =>
                  some { protocol := scheme ++ [':']
                         hostname := host
                         port := port
                         pathname := match ap.2 with
                           | none => []
                           | some t => '/' :: t
                         search := match bq.2 with
                           | none => []
                           | some [] => []
                           | some q => '?' :: q }
        else none

/-- Drop an explicit port that is the default of an already lower-cased
protocol: 80 for http, 443 for https. -/
def dropDefaultPort (protocol port : List Char) : List Char :=
  if (protocol = "http:".data ∧ port = "80".data) ∨
     (protocol = "https:".data ∧ port = "443".data) then []
  else port

/-- The reassembly performed inside `normalizeOriginalUrl`: lower-cased
protocol and hostname, the explicit port dropped when it is the scheme's
default, the path defaulting to '/', the fragment absent. -/
def renderNormalizedChars (p : URLParts) : List Char :=
  let protocol := lowerChars p.protocol
  let hostname := lowerChars p.hostname
  let port := dropDefaultPort protocol p.port
  let origin := protocol ++ '/' :: '/' :: hostname ++
    (if port = [] then [] else ':' :: port)
  let pathname := if p.pathname = [] then "/".data else p.pathname
  origin ++ pathname ++ p.search

/-- The unconditional reassembly scheme://host[:port]path?query of stored
URL components. -/
def rawAssemble (q : URLParts) : List Char :=
  q.protocol ++ '/' :: '/' :: q.hostname ++
    (if q.port = [] then [] else ':' :: q.port) ++ q.pathname ++ q.search

/-- The component-wise normalization the renderer applies before
reassembly. -/
def normParts (p : URLParts) : URLParts :=
  { protocol := lowerChars p.protocol
    hostname := lowerChars p.hostname
    port := dropDefaultPort (lowerChars p.protocol) p.port
    pathname := if p.pathname = [] then "/".data else p.pathname
    search := p.search }

/-- The well-formedness invariants a successful parse guarantees about
the produced URL components. -/
structure WF (p : URLParts) : Prop where
  scheme_ex : ∃ s, p.protocol = s ++ [':'] ∧ validScheme s = true
  host_ne : p.hostname ≠ []
  host_colon : ':' ∉ p.hostname
  host_slash : '/' ∉ p.hostname
  host_query : '?' ∉ p.hostname
  host_hash : '#' ∉ p.hostname
  host_ws : ∀ c ∈ p.hostname, isWS c = false
  port_digits : p.port.all isAsciiDigit = true
  path_shape : p.pathname = [] ∨ ∃ t, p.pathname = '/' :: t
  path_query : '?' ∉ p.pathname
  path_hash : '#' ∉ p.pathname
  path_ws : ∀ c ∈ p.pathname, isWS c = false
  search_shape : p.search = [] ∨ ∃ t, t ≠ [] ∧ p.search = '?' :: t
  search_hash : '#' ∉ p.search
  search_ws : ∀ c ∈ p.search, isWS c = false

/-- The spec's wording of the reassembled normalized URL, written at the
string level: scheme://host[:port]path[?query] with scheme and host
lower-cased, a default port dropped, the path defaulting to '/', and the
fragment absent.  Stated as a second definition following the spec's
words, for comparison with the renderer embedded from the code. -/
def specNormalizedForm (p : URLParts) : String :=
  let scheme := toLowerJS ⟨p.protocol⟩
  let host := toLowerJS ⟨p.hostname⟩
  let port : String :=
    if (scheme = "http:" ∧ (⟨p.port⟩ : String) = "80") ∨
       (scheme = "https:" ∧ (⟨p.port⟩ : String) = "443") then ""
    else ⟨p.port⟩
  let portPart := if port = "" then "" else ":" ++ port
  let path := if (⟨p.pathname⟩ : String) = "" then "/" else ⟨p.pathname⟩
  scheme ++ "//" ++ host ++ portPart ++ path ++ ⟨p.search⟩

/-- `normalizeOriginalUrl(value)`: clean the input, parse it as an
absolute URL, and reassemble the canonical comparison form; `none` when
the input cleans to absent or fails to parse. -/
def normalizeOriginalUrl (value : Option String) : Option String :=
  match cleanString value with
  | none => none
  | some cleaned =>
      match parseURLChars cleaned.data with
      | none => none
      | some parsed => some ⟨renderNormalizedChars parsed⟩

/-! ## Cached image record and duplicate detector -/

/-- The cache's canonical in-memory representation of one remote image
(`CachedCloudflareImage`). -/
structure CachedCloudflareImage where
  id : String
  filename : String
  uploaded : String
  variants : List String
  folder : Option String := none
  tags : List String := []
  description : Option String := none
  altTag : Option String := none
  originalUrl : Option String := none
  originalUrlNormalized : Option String := none
  contentHash : Option String := none
  parentId : Option String := none
  linkedAssetId : Option String := none
deriving DecidableEq

/-- The projection `toDuplicateSummary` exposes. -/
structure DuplicateSummary where
  id : String
  filename : String
  folder : Option String
  uploaded : String
  url : Option String
deriving DecidableEq

/-- `toDuplicateSummary(image)`: id, filename, folder, uploaded and the
first variant URL. -/
def toDuplicateSummary (image : CachedCloudflareImage) : DuplicateSummary :=
  { id := image.id
    filename := image.filename
    folder := image.folder
    uploaded := image.uploaded
    url := image.variants.head? }

/-- The detector's local helper `normalize`:
`(value ?? '').trim().toLowerCase()`. -/
def normalizeName (value : Option String) : String :=
  toLowerJS (trimJS (value.getD ""))

/-- The JavaScript falsiness test applied to an optional string result:
true on `undefined` and on the empty string. -/
def strFalsy : Option String → Bool
  | none => true
  | some s => s == ""

/-- `findDuplicatesByFilename(filename)` applied to the awaited cache
snapshot: an empty normalized candidate short-circuits to the empty
list, otherwise the snapshot is filtered by normalized-filename
equality. -/
def findDuplicatesByFilename (images : List CachedCloudflareImage)
    (filename : String) : List CachedCloudflareImage :=
  let normalized := normalizeName (some filename)
  if normalized = "" then []
  else images.filter (fun img => normalizeName (some img.filename) = normalized)

/-- The lookup `img.originalUrlNormalized ?? normalizeOriginalUrl(img.originalUrl)`
used inside `findDuplicatesByOriginalUrl`. -/
def existingNormalized (img : CachedCloudflareImage) : Option String :=
  match img.originalUrlNormalized with
  | some s => some s
  | none => normalizeOriginalUrl img.originalUrl

/-- `findDuplicatesByOriginalUrl(originalUrl)` applied to the awaited
cache snapshot. -/
def findDuplicatesByOriginalUrl (images : List CachedCloudflareImage)
    (originalUrl : String) : List CachedCloudflareImage :=
  let normalized := normalizeOriginalUrl (some originalUrl)
  if strFalsy normalized then []
  else images.filter (fun img => existingNormalized img = normalized)

/-- ASCII lower-case hex digit test, the character class of the regex
used by the content-hash normalizer. -/
def isLowerHexChar (c : Char) : Bool :=
  (97 ≤ c.toNat ∧ c.toNat ≤ 102) ∨ isAsciiDigit c

/-- The test for the anchored regex of exactly 64 lower-case hex
characters. -/
def isHex64 (s : String) : Bool :=
  s.data.length == 64 && s.data.all isLowerHexChar

/-- The local `normalizeHash` helper of `findDuplicatesByContentHash`:
trim, lower-case, and keep the value only when it is exactly 64 hex
characters. -/
def normalizeHash (value : Option String) : Option String :=
  let trimmed := toLowerJS (trimJS (value.getD ""))
  if isHex64 trimmed then some trimmed else none

/-- `findDuplicatesByContentHash(contentHash)` applied to the awaited
cache snapshot. -/
def findDuplicatesByContentHash (images : List CachedCloudflareImage)
    (contentHash : String) : List CachedCloudflareImage :=
  let normalized := normalizeHash (some contentHash)
  if strFalsy normalized then []
  else images.filter (fun img => normalizeHash img.contentHash = normalized)

/-! ## Image cache — modelled from the spec

The implementation file of the image cache (`cloudflareImageCache.ts`) is
not among the sources at hand; only its callers are.  The definitions in
this section are therefore modelled from the design spec (sections 4.3,
5 and 7). -/

/-- Modelled from the spec: a failure of the Remote Catalog Gateway,
either missing credentials or an upstream error with the remote status
and message preserved (`cloudflareImageCache.ts` is not among the
sources). -/
inductive GatewayError where
  | credentialsMissing
  | upstreamError (status : Nat) (message : String)
deriving DecidableEq

/-- Modelled from the spec: a raw record as the Remote Catalog Gateway
returns it; `meta` is the opaque blob the metadata normalizer consumes
(`cloudflareImageCache.ts` is not among the sources). -/
structure RawImageRecord where
  id : String
  filename : String
  uploaded : String
  variants : List String
  meta : JsValue

/-- Read a string-valued metadata field through `cleanString`, as the
spec's derived-field computation prescribes. -/
def metaStringField (fields : List (String × JsValue)) (key : String) :
    Option String :=
  match jsGet fields key with
  | .str s => cleanString (some s)
  | _ => none

/-- Modelled from the spec: turn one raw gateway record into a cached
image by normalizing its metadata blob, cleaning the derived string
fields, and recomputing `originalUrlNormalized` from `originalUrl`
(`cloudflareImageCache.ts` is not among the sources). -/
def transformRecord (jsonParse : String → Option JsValue)
    (r : RawImageRecord) : CachedCloudflareImage :=
  let fields :=
    match parseCloudflareMetadata jsonParse r.meta with
    | .obj fs => fs
    | _ => []
  let originalUrl := metaStringField fields "originalUrl"
  { id := r.id
    filename := r.filename
    uploaded := r.uploaded
    variants := r.variants
    folder := metaStringField fields "folder"
    tags := (match jsGet fields "tags" with
      | .arr elems => elems.filterMap (fun v => match v with
          | .str s => cleanString (some s)
          | _ => none)
      | _ => [])
    description := metaStringField fields "description"
    altTag := metaStringField fields "altTag"
    originalUrl := originalUrl
    originalUrlNormalized := normalizeOriginalUrl originalUrl
    contentHash := metaStringField fields "contentHash"
    parentId := metaStringField fields "variationParentId"
    linkedAssetId := metaStringField fields "linkedAssetId" }

/-- Modelled from the spec: the cache's shared state — an optional
snapshot of cached images, the time of the last successful refresh and
the configured TTL (`cloudflareImageCache.ts` is not among the
sources). -/
structure CacheState where
  snapshot : Option (List CachedCloudflareImage)
  lastRefreshedAt : Nat
  ttl : Nat
deriving DecidableEq

/-- Modelled from the spec: one refresh attempt against the gateway's
`listAll` result.  On success the snapshot is replaced wholesale and the
refresh time updated; on failure the previous state is left intact and
the error reported (`cloudflareImageCache.ts` is not among the
sources). -/
def refreshCache (jsonParse : String → Option JsValue)
    (gw : Except GatewayError (List RawImageRecord)) (now : Nat)
    (st : CacheState) :
    CacheState × Except GatewayError (List CachedCloudflareImage) :=
  match gw with
  | .error e => (st, .error e)
  | .ok records =>
      let images := records.map (transformRecord jsonParse)
      ({ st with snapshot := some images, lastRefreshedAt := now },
       .ok images)

/-- Modelled from the spec: `getImages(forceRefresh)`.  An absent
snapshot or a forced refresh propagates a refresh failure to the caller;
a TTL-triggered refresh failure keeps the stale snapshot available; a
fresh snapshot is served as-is (`cloudflareImageCache.ts` is not among
the sources). -/
def getImages (jsonParse : String → Option JsValue) (forceRefresh : Bool)
    (gw : Except GatewayError (List RawImageRecord)) (now : Nat)
    (st : CacheState) :
    CacheState × Except GatewayError (List CachedCloudflareImage) :=
  match st.snapshot with
  | none => refreshCache jsonParse gw now st
  | some images =>
      if forceRefresh then refreshCache jsonParse gw now st
      else if st.lastRefreshedAt + st.ttl < now then
        match refreshCache jsonParse gw now st with
        | (st', .ok fresh) => (st', .ok fresh)
        | (_, .error _) => (st, .ok images)
      else (st, .ok images)

/-- Modelled from the spec: the single-flight bookkeeping stored
alongside the snapshot — whether a refresh promise is in flight, how
many times the gateway's `listAll` has been invoked, and how many
callers are attached to the current flight (`cloudflareImageCache.ts`
is not among the sources). -/
structure FlightState where
  inFlight : Bool
  listAllCalls : Nat
  attached : Nat
deriving DecidableEq

/-- Modelled from the spec: one caller requesting a refresh while no
completion has occurred.  If a refresh is already in flight the caller
attaches to it; otherwise a new flight starts and the gateway's
`listAll` is invoked once (`cloudflareImageCache.ts` is not among the
sources). -/
def requestRefresh (st : FlightState) : FlightState :=
  if st.inFlight then { st with attached := st.attached + 1 }
  else { inFlight := true, listAllCalls := st.listAllCalls + 1,
         attached := st.attached + 1 }

/-- Modelled from the spec: `n` concurrent callers arriving before the
in-flight refresh completes (`cloudflareImageCache.ts` is not among the
sources). -/
def arrivals : Nat → FlightState → FlightState
  | 0, st => st
  | n + 1, st => arrivals n (requestRefresh st)

/-- The flight state of a process that has not refreshed yet. -/
def initialFlight : FlightState :=
  { inFlight := false, listAllCalls := 0, attached := 0 }

/-! ## Sample data used by concrete witnesses and counterexamples -/

/-- A 64-character lower-case hex digest. -/
def hashLower : String :=
  "aaaaaaaaaaaaaaaaaaaaaaaaaaaaaaaaaaaaaaaaaaaaaaaaaaaaaaaaaaaaaaaa"

/-- The same digest upper-cased and carrying an explicit algorithm tag. -/
def hashTagged : String :=
  "SHA256:AAAAAAAAAAAAAAAAAAAAAAAAAAAAAAAAAAAAAAAAAAAAAAAAAAAAAAAAAAAAAAAA"

/-- A cached image whose content hash is `hashLower`. -/
def hashImage : CachedCloudflareImage :=
  { id := "img-hash", filename := "h.png", uploaded := "2025-01-01T00:00:00Z",
    variants := [], contentHash := some hashLower }

/-- A cached image whose filename is a single space, so its normalized
filename is the empty string. -/
def blankNameImage : CachedCloudflareImage :=
  { id := "img-blank", filename := " ", uploaded := "2025-01-02T00:00:00Z",
    variants := [] }

/-- A cached image named with upper-case letters. -/
def photoUpper : CachedCloudflareImage :=
  { id := "img-upper", filename := "Photo.PNG",
    uploaded := "2025-01-03T00:00:00Z", variants := [] }

/-- A cached image named with a trailing space. -/
def photoTrailing : CachedCloudflareImage :=
  { id := "img-trailing", filename := "photo.png ",
    uploaded := "2025-01-04T00:00:00Z", variants := [] }

/-- A cached image carrying a stored normalized source URL. -/
def urlImage : CachedCloudflareImage :=
  { id := "img-url", filename := "u.png", uploaded := "2025-01-05T00:00:00Z",
    variants := [], originalUrlNormalized := some "https://dup.example.com/img.png" }

/-- A generic cached image for the cache-state scenarios. -/
def plainImage : CachedCloudflareImage :=
  { id := "img-plain", filename := "p.png", uploaded := "2025-01-06T00:00:00Z",
    variants := ["https://cdn.example.com/p/public"] }

/-- A previously populated cache state with a 60-unit TTL. -/
def populatedState : CacheState :=
  { snapshot := some [plainImage], lastRefreshedAt := 0, ttl := 60 }

/-- A sample stand-in for the platform JSON parser, defined on one array
literal. -/
def sampleJsonParse : String → Option JsValue :=
  fun s => if s = "[1]" then some (JsValue.arr [JsValue.num 1]) else none

/-! ## Supporting lemmas -/

/-- Every pair accumulated by the allow-list fold comes from the initial
accumulator or carries a key of the folded key list. -/
theorem mem_pickFold (meta : List (String × JsValue)) :
    ∀ (keys : List String) (acc : List (String × JsValue))
      (kv : String × JsValue),
      kv ∈ keys.foldl (fun trimmed key =>
        if isUndefinedVal (jsGet meta key) then trimmed
        else trimmed ++ [(key, jsGet meta key)]) acc →
      kv ∈ acc ∨ kv.1 ∈ keys := by
  intro keys
  induction keys with
  | nil => intro acc kv h; exact Or.inl h
  | cons k ks ih =>
      intro acc kv h
      rw [List.foldl_cons] at h
      rcases ih _ kv h with h' | h'
      · by_cases hu : isUndefinedVal (jsGet meta k) = true
        · rw [if_pos hu] at h'
          exact Or.inl h'
        · rw [if_neg hu] at h'
          rcases List.mem_append.1 h' with h2 | h2
          · exact Or.inl h2
          · rw [List.mem_singleton.1 h2]
            exact Or.inr (List.mem_cons_self _ _)
      · exact Or.inr (List.mem_cons_of_mem _ h')

/-- A successfully normalized content hash is never the empty string. -/
theorem normalizeHash_ne_empty {v : Option String} {n : String}
    (h : normalizeHash v = some n) : n ≠ "" := by
  intro hn
  subst hn
  by_cases hx : isHex64 (toLowerJS (trimJS (v.getD ""))) = true
  · simp only [normalizeHash, if_pos hx, Option.some.injEq] at h
    rw [h] at hx
    exact absurd hx (by decide)
  · simp only [normalizeHash, if_neg hx] at h
    exact Option.noConfusion h

/-- The reassembled normalized URL always contains the '//' separator,
hence is nonempty. -/
theorem renderNormalizedChars_ne_nil (p : URLParts) :
    renderNormalizedChars p ≠ [] := by
  intro h
  have hlen := congrArg List.length h
  simp only [renderNormalizedChars, List.length_append, List.length_cons,
    List.length_nil] at hlen
  omega

/-- A successfully normalized URL is never the empty string. -/
theorem normalizeOriginalUrl_ne_empty {v : Option String} {n : String}
    (h : normalizeOriginalUrl v = some n) : n ≠ "" := by
  intro hn
  subst hn
  simp only [normalizeOriginalUrl] at h
  cases hc : cleanString v with
  | none => rw [hc] at h; exact Option.noConfusion h
  | some c =>
      rw [hc] at h
      dsimp only at h
      cases hp : parseURLChars c.data with
      | none => rw [hp] at h; exact Option.noConfusion h
      | some p =>
          rw [hp] at h
          dsimp only at h
          rw [Option.some.injEq] at h
          exact renderNormalizedChars_ne_nil p (congrArg String.data h)

/-- Once a refresh flight is open, further arrivals only attach to it. -/
theorem arrivals_of_inFlight (n : Nat) :
    ∀ st : FlightState, st.inFlight = true →
      arrivals n st = { st with attached := st.attached + n } := by
  induction n with
  | zero => intro st h; rfl
  | succ m ih =>
      intro st h
      rw [arrivals]
      have hr : requestRefresh st = { st with attached := st.attached + 1 } := by
        simp [requestRefresh, h]
      rw [hr, ih _ (by simpa using h)]
      have : st.attached + 1 + m = st.attached + (m + 1) := by omega
      rw [this]

/-! ## URL parser and renderer lemmas -/

/-- Char.ofNat below the surrogate range keeps its code point. -/
theorem toNat_ofNat_small {n : Nat} (h : n < 55296) : (Char.ofNat n).toNat = n := by
  have hv : n.isValidChar := Or.inl h
  simp [Char.ofNat, hv]
  rfl

/-- lowerChar either shifts an upper-case letter down by 32 or is the identity. -/
theorem lowerChar_toNat (c : Char) :
    (lowerChar c).toNat =
      if 65 ≤ c.toNat ∧ c.toNat ≤ 90 then c.toNat + 32 else c.toNat := by
  by_cases h : 65 ≤ c.toNat ∧ c.toNat ≤ 90
  · rw [if_pos h]
    unfold lowerChar
    rw [if_pos h]
    exact toNat_ofNat_small (by omega)
  · rw [if_neg h]
    unfold lowerChar
    rw [if_neg h]

theorem lowerChar_eq_self {c : Char} (h : ¬(65 ≤ c.toNat ∧ c.toNat ≤ 90)) :
    lowerChar c = c := by
  unfold lowerChar
  rw [if_neg h]

theorem lowerChar_idem (c : Char) : lowerChar (lowerChar c) = lowerChar c := by
  apply lowerChar_eq_self
  have h1 := lowerChar_toNat c
  by_cases h : 65 ≤ c.toNat ∧ c.toNat ≤ 90
  · rw [if_pos h] at h1
    omega
  · rw [if_neg h] at h1
    omega

/-- lowerChar equals a code point below 65 exactly when its input does. -/
theorem lowerChar_eq_low {c s : Char} (hs : s.toNat < 65) :
    lowerChar c = s ↔ c = s := by
  constructor
  · intro h
    by_cases hu : 65 ≤ c.toNat ∧ c.toNat ≤ 90
    · exfalso
      have h1 := lowerChar_toNat c
      rw [if_pos hu, h] at h1
      omega
    · rw [lowerChar_eq_self hu] at h
      exact h
  · intro h
    subst h
    exact lowerChar_eq_self (by omega)

theorem isWS_lowerChar (c : Char) : isWS (lowerChar c) = isWS c := by
  have h1 := lowerChar_toNat c
  by_cases h : 65 ≤ c.toNat ∧ c.toNat ≤ 90
  · rw [if_pos h] at h1
    unfold isWS
    rw [h1]
    exact decide_eq_decide.mpr (by constructor <;> (intro h2; omega))
  · rw [if_neg h] at h1
    unfold isWS
    rw [h1]

/-- Lower-casing distributes over append. -/
theorem lowerChars_append (a b : List Char) :
    lowerChars (a ++ b) = lowerChars a ++ lowerChars b := by
  simp [lowerChars]

theorem lowerChars_idem (l : List Char) :
    lowerChars (lowerChars l) = lowerChars l := by
  simp [lowerChars, List.map_map]
  intro c _
  exact lowerChar_idem c

/-- Membership of a low code point survives lower-casing in both directions. -/
theorem mem_lowerChars_low {s : Char} (hs : s.toNat < 65) (l : List Char) :
    s ∈ lowerChars l ↔ s ∈ l := by
  unfold lowerChars
  constructor
  · intro h
    obtain ⟨c, hc, hlc⟩ := List.mem_map.1 h
    rw [(lowerChar_eq_low hs).1 hlc] at hc
    exact hc
  · intro h
    exact List.mem_map.2 ⟨s, h, (lowerChar_eq_low hs).2 rfl⟩



/-- Characterization of a successful first-occurrence split. -/
theorem splitOnFirst_eq_some {sep : Char} :
    ∀ {l a b : List Char}, splitOnFirst sep l = some (a, b) →
      l = a ++ sep :: b ∧ sep ∉ a := by
  intro l
  induction l with
  | nil => intro a b h; exact absurd h (by simp [splitOnFirst])
  | cons c cs ih =>
      intro a b h
      unfold splitOnFirst at h
      by_cases hc : c = sep
      · rw [if_pos hc] at h
        obtain ⟨rfl, rfl⟩ : a = [] ∧ b = cs := by
          simpa using h.symm
        subst hc
        exact ⟨rfl, List.not_mem_nil _⟩
      · rw [if_neg hc] at h
        cases hs : splitOnFirst sep cs with
        | none => rw [hs] at h; exact absurd h (by simp)
        | some ab =>
            obtain ⟨a2, b2⟩ := ab
            rw [hs] at h
            simp only [Option.some.injEq, Prod.mk.injEq] at h
            obtain ⟨rfl, rfl⟩ : c :: a2 = a ∧ b2 = b := h
            obtain ⟨he, hn⟩ := ih hs
            constructor
            · rw [he]; rfl
            · intro hmem
              rcases List.mem_cons.1 hmem with h1 | h1
              · exact hc h1.symm
              · exact hn h1

/-- A split succeeds on a list assembled around an absent separator. -/
theorem splitOnFirst_append {sep : Char} :
    ∀ {a : List Char} (b : List Char), sep ∉ a →
      splitOnFirst sep (a ++ sep :: b) = some (a, b) := by
  intro a
  induction a with
  | nil => intro b _; simp [splitOnFirst]
  | cons c cs ih =>
      intro b hmem
      have hc : ¬(c = sep) := fun h => hmem (h ▸ List.mem_cons_self c cs)
      have htail : sep ∉ cs := fun h => hmem (List.mem_cons_of_mem _ h)
      show splitOnFirst sep (c :: (cs ++ sep :: b)) = some (c :: cs, b)
      simp only [splitOnFirst]
      rw [if_neg hc, ih b htail]

/-- A split fails exactly when the separator is absent. -/
theorem splitOnFirst_eq_none {sep : Char} :
    ∀ {l : List Char}, splitOnFirst sep l = none ↔ sep ∉ l := by
  intro l
  induction l with
  | nil => simp [splitOnFirst]
  | cons c cs ih =>
      simp only [splitOnFirst]
      by_cases hc : c = sep
      · subst hc
        rw [if_pos rfl]
        simp
      · rw [if_neg hc]
        cases hs : splitOnFirst sep cs with
        | none =>
            have hncs : sep ∉ cs := ih.1 hs
            dsimp only
            simp only [List.mem_cons]
            constructor
            · intro _ h
              rcases h with h | h
              · exact hc h.symm
              · exact hncs h
            · intro _
              trivial
        | some ab =>
            obtain ⟨a2, b2⟩ := ab
            have hmemcs : sep ∈ cs := by
              obtain ⟨he, _⟩ := splitOnFirst_eq_some hs
              rw [he]
              exact List.mem_append.2 (Or.inr (List.mem_cons_self _ _))
            dsimp only
            constructor
            · intro h
              exact absurd h (by simp)
            · intro h
              exact absurd (List.mem_cons_of_mem _ hmemcs) h


/-- takeWhile is the identity when every element satisfies the predicate. -/
theorem takeWhile_of_all {p : Char → Bool} :
    ∀ {l : List Char}, (∀ c ∈ l, p c = true) → l.takeWhile p = l := by
  intro l
  induction l with
  | nil => intro _; rfl
  | cons c cs ih =>
      intro h
      rw [List.takeWhile_cons, if_pos (h c (List.mem_cons_self _ _)), ih]
      intro d hd
      exact h d (List.mem_cons_of_mem _ hd)

/-- dropWhile is the identity when every element fails the predicate. -/
theorem dropWhile_of_none {p : Char → Bool} :
    ∀ {l : List Char}, (∀ c ∈ l, p c = false) → l.dropWhile p = l := by
  intro l
  cases l with
  | nil => intro _; rfl
  | cons c cs =>
      intro h
      rw [List.dropWhile_cons, if_neg]
      rw [h c (List.mem_cons_self _ _)]
      simp

/-- trim is the identity on whitespace-free lists. -/
theorem trimChars_of_noWS {l : List Char} (h : ∀ c ∈ l, isWS c = false) :
    trimChars l = l := by
  unfold trimChars
  rw [dropWhile_of_none h]
  rw [dropWhile_of_none (fun c hc => h c (List.mem_reverse.1 hc))]
  exact List.reverse_reverse l

/-- Every character of a valid scheme is a scheme character. -/
theorem validScheme_chars {s : List Char} (h : validScheme s = true) :
    ∀ c ∈ s, isSchemeChar c = true := by
  cases s with
  | nil => simp [validScheme] at h
  | cons c cs =>
      simp only [validScheme, Bool.and_eq_true, List.all_eq_true] at h
      intro d hd
      rcases List.mem_cons.1 hd with rfl | hd
      · have := h.1
        simp only [isSchemeChar, decide_eq_true_eq]
        exact Or.inl this
      · exact h.2 d hd

/-- The code point ranges a scheme character can occupy. -/
theorem schemeChar_toNat {c : Char} (h : isSchemeChar c = true) :
    (65 ≤ c.toNat ∧ c.toNat ≤ 90) ∨ (97 ≤ c.toNat ∧ c.toNat ≤ 122) ∨
    (48 ≤ c.toNat ∧ c.toNat ≤ 57) ∨ c.toNat = 43 ∨ c.toNat = 45 ∨
    c.toNat = 46 := by
  have hn : isAsciiAlpha c = true ∨ isAsciiDigit c = true ∨ c = '+' ∨
      c = '-' ∨ c = '.' := by
    simpa [isSchemeChar] using h
  rcases hn with h1 | h1 | rfl | rfl | rfl
  · have h2 : (65 ≤ c.toNat ∧ c.toNat ≤ 90) ∨ (97 ≤ c.toNat ∧ c.toNat ≤ 122) := by
      simpa [isAsciiAlpha] using h1
    rcases h2 with h2 | h2
    · exact Or.inl h2
    · exact Or.inr (Or.inl h2)
  · have h2 : 48 ≤ c.toNat ∧ c.toNat ≤ 57 := by
      simpa [isAsciiDigit] using h1
    exact Or.inr (Or.inr (Or.inl h2))
  · exact Or.inr (Or.inr (Or.inr (Or.inl rfl)))
  · exact Or.inr (Or.inr (Or.inr (Or.inr (Or.inl rfl))))
  · exact Or.inr (Or.inr (Or.inr (Or.inr (Or.inr rfl))))

/-- Two characters with distinct code points differ. -/
theorem char_ne_of_toNat_ne {c d : Char} (h : c.toNat ≠ d.toNat) : c ≠ d :=
  fun he => h (congrArg Char.toNat he)

/-- A character is non-whitespace when its code point avoids the four
whitespace points. -/
theorem isWS_false_of_toNat {c : Char} (h : c.toNat ≠ 32 ∧ c.toNat ≠ 9 ∧
    c.toNat ≠ 10 ∧ c.toNat ≠ 13) : isWS c = false := by
  simp only [isWS, decide_eq_false_iff_not]
  omega

/-- Scheme characters are none of the URL delimiters nor whitespace. -/
theorem schemeChar_safe {c : Char} (h : isSchemeChar c = true) :
    c ≠ ':' ∧ c ≠ '/' ∧ c ≠ '?' ∧ c ≠ '#' ∧ isWS c = false := by
  have hr := schemeChar_toNat h
  have hb : c.toNat ≠ 58 ∧ c.toNat ≠ 47 ∧ c.toNat ≠ 63 ∧ c.toNat ≠ 35 ∧
      c.toNat ≠ 32 ∧ c.toNat ≠ 9 ∧ c.toNat ≠ 10 ∧ c.toNat ≠ 13 := by
    rcases hr with ⟨h1, h2⟩ | ⟨h1, h2⟩ | ⟨h1, h2⟩ | h1 | h1 | h1 <;>
      exact ⟨by omega, by omega, by omega, by omega, by omega, by omega,
        by omega, by omega⟩
  obtain ⟨b1, b2, b3, b4, b5, b6, b7, b8⟩ := hb
  have e1 : (':' : Char).toNat = 58 := rfl
  have e2 : ('/' : Char).toNat = 47 := rfl
  have e3 : ('?' : Char).toNat = 63 := rfl
  have e4 : ('#' : Char).toNat = 35 := rfl
  exact ⟨char_ne_of_toNat_ne (by rw [e1]; exact b1),
         char_ne_of_toNat_ne (by rw [e2]; exact b2),
         char_ne_of_toNat_ne (by rw [e3]; exact b3),
         char_ne_of_toNat_ne (by rw [e4]; exact b4),
         isWS_false_of_toNat ⟨b5, b6, b7, b8⟩⟩

/-- Digits are none of the URL delimiters nor whitespace. -/
theorem digit_safe {c : Char} (h : isAsciiDigit c = true) :
    c ≠ ':' ∧ c ≠ '/' ∧ c ≠ '?' ∧ c ≠ '#' ∧ isWS c = false := by
  have hr : 48 ≤ c.toNat ∧ c.toNat ≤ 57 := by simpa [isAsciiDigit] using h
  have e1 : (':' : Char).toNat = 58 := rfl
  have e2 : ('/' : Char).toNat = 47 := rfl
  have e3 : ('?' : Char).toNat = 63 := rfl
  have e4 : ('#' : Char).toNat = 35 := rfl
  exact ⟨char_ne_of_toNat_ne (by omega),
         char_ne_of_toNat_ne (by omega),
         char_ne_of_toNat_ne (by omega),
         char_ne_of_toNat_ne (by omega),
         isWS_false_of_toNat ⟨by omega, by omega, by omega, by omega⟩⟩


/-- Characterization of a successful authority split. -/
theorem parseAuthority_eq_some {auth host port : List Char}
    (h : parseAuthority auth = some (host, port)) :
    host ≠ [] ∧ ':' ∉ host ∧ port.all isAsciiDigit = true ∧
      (auth = host ∧ port = [] ∨ auth = host ++ ':' :: port) := by
  unfold parseAuthority at h
  cases hs : splitOnFirst ':' auth with
  | none =>
      rw [hs] at h
      dsimp only at h
      by_cases ha : auth = []
      · rw [if_pos ha] at h
        exact absurd h (by simp)
      · rw [if_neg ha] at h
        obtain ⟨rfl, rfl⟩ : auth = host ∧ ([] : List Char) = port := by
          simpa using h
        exact ⟨ha, splitOnFirst_eq_none.1 hs, by simp, Or.inl ⟨rfl, rfl⟩⟩
  | some hp =>
      obtain ⟨h0, p0⟩ := hp
      rw [hs] at h
      dsimp only at h
      by_cases hh : h0 = []
      · rw [if_pos hh] at h
        exact absurd h (by simp)
      rw [if_neg hh] at h
      by_cases hd : p0.all isAsciiDigit = true
      case neg =>
        rw [if_neg hd] at h
        exact absurd h (by simp)
      rw [if_pos hd] at h
      obtain ⟨rfl, rfl⟩ : h0 = host ∧ p0 = port := by simpa using h
      obtain ⟨he, hn⟩ := splitOnFirst_eq_some hs
      exact ⟨hh, hn, hd, Or.inr he⟩

/-- Reparsing an assembled authority recovers host and port. -/
theorem parseAuthority_assemble {host port : List Char} (hne : host ≠ [])
    (hcolon : ':' ∉ host) (hd : port.all isAsciiDigit = true) :
    parseAuthority (host ++ (if port = [] then [] else ':' :: port))
      = some (host, port) := by
  by_cases hp : port = []
  · subst hp
    rw [if_pos rfl, List.append_nil]
    unfold parseAuthority
    rw [show splitOnFirst ':' host = none from splitOnFirst_eq_none.2 hcolon]
    dsimp only
    rw [if_neg hne]
  · rw [if_neg hp]
    unfold parseAuthority
    rw [splitOnFirst_append port hcolon]
    dsimp only
    rw [if_neg hne, if_pos hd]

/-- Characterization of a successful '//' strip. -/
theorem stripSlashSlash_eq_some :
    ∀ {l r : List Char}, stripSlashSlash l = some r → l = '/' :: '/' :: r := by
  intro l r h
  cases l with
  | nil => exact absurd h (by simp [stripSlashSlash])
  | cons c1 t1 =>
      cases t1 with
      | nil => exact absurd h (by simp [stripSlashSlash])
      | cons c2 t2 =>
          unfold stripSlashSlash at h
          dsimp only at h
          by_cases hcc : c1 = '/' ∧ c2 = '/'
          · rw [if_pos hcc] at h
            obtain ⟨rfl, rfl⟩ := hcc
            obtain rfl : t2 = r := by simpa using h
            rfl
          · rw [if_neg hcc] at h
            exact absurd h (by simp)


/-- Elements of takeWhile come from the original list. -/
theorem mem_of_mem_takeWhile {p : Char → Bool} {l : List Char} {c : Char}
    (h : c ∈ l.takeWhile p) : c ∈ l :=
  (List.takeWhile_sublist p).subset h

/-- The host and port of a parsed authority inherit the character
restrictions of the authority segment. -/
theorem hostFacts {input auth host port : List Char}
    (hpa : parseAuthority auth = some (host, port))
    (hws : ∀ c ∈ input, isWS c = false)
    (hsub : ∀ c ∈ auth, c ∈ input)
    (hq : '?' ∉ auth) (hsl : '/' ∉ auth) (hh : '#' ∉ auth) :
    host ≠ [] ∧ ':' ∉ host ∧ '/' ∉ host ∧ '?' ∉ host ∧ '#' ∉ host ∧
      (∀ c ∈ host, isWS c = false) ∧ port.all isAsciiDigit = true := by
  obtain ⟨hne, hc, hd, hcase⟩ := parseAuthority_eq_some hpa
  have hhostsub : ∀ c ∈ host, c ∈ auth := by
    rcases hcase with ⟨rfl, _⟩ | rfl
    · exact fun c hc => hc
    · exact fun c hc => List.mem_append.2 (Or.inl hc)
  exact ⟨hne, hc, fun hm => hsl (hhostsub _ hm), fun hm => hq (hhostsub _ hm),
    fun hm => hh (hhostsub _ hm),
    fun c hm => hws c (hsub c (hhostsub c hm)), hd⟩

/-- A successful parse yields well-formed URL components. -/
theorem parseURLChars_wf {input : List Char} {p : URLParts}
    (h : parseURLChars input = some p) : WF p := by
  unfold parseURLChars at h
  by_cases hws : input.any isWS = true
  · rw [if_pos hws] at h
    exact absurd h (by simp)
  rw [if_neg hws] at h
  have hwsAll : ∀ c ∈ input, isWS c = false := by
    intro c hc
    by_contra hcc
    exact hws (List.any_eq_true.2 ⟨c, hc, by simpa using hcc⟩)
  cases hsplit : splitOnFirst ':' input with
  | none =>
      rw [hsplit] at h
      exact absurd h (by simp)
  | some sr =>
  obtain ⟨scheme, rest⟩ := sr
  rw [hsplit] at h
  dsimp only at h
  by_cases hv : validScheme scheme = true
  case neg =>
    rw [if_neg hv] at h
    exact absurd h (by simp)
  rw [if_pos hv] at h
  cases hss : stripSlashSlash rest with
  | none =>
      rw [hss] at h
      exact absurd h (by simp)
  | some rest2 =>
  rw [hss] at h
  dsimp only at h
  obtain ⟨hinput, hnscheme⟩ := splitOnFirst_eq_some hsplit
  have hfr : rest = '/' :: '/' :: rest2 := stripSlashSlash_eq_some hss
  have hrest2 : ∀ c ∈ rest2, c ∈ input := by
    intro c hc
    rw [hinput, hfr]
    simp [hc]
  have hnfsub : ∀ c ∈ rest2.takeWhile (fun c => c ≠ '#'), c ∈ input :=
    fun c hc => hrest2 c (mem_of_mem_takeWhile hc)
  have hnfh : '#' ∉ rest2.takeWhile (fun c => c ≠ '#') := by
    intro hm
    have := List.mem_takeWhile_imp hm
    simp at this
  cases hqs : splitOnFirst '?' (rest2.takeWhile (fun c => c ≠ '#')) with
  | none =>
      have hbq : splitQuery (rest2.takeWhile (fun c => c ≠ '#'))
          = (rest2.takeWhile (fun c => c ≠ '#'), none) := by
        unfold splitQuery
        rw [hqs]
      rw [hbq] at h
      dsimp only at h
      have hbqq : '?' ∉ rest2.takeWhile (fun c => c ≠ '#') :=
        splitOnFirst_eq_none.1 hqs
      cases hps : splitOnFirst '/' (rest2.takeWhile (fun c => c ≠ '#')) with
      | none =>
          have hap : splitPath (rest2.takeWhile (fun c => c ≠ '#'))
              = (rest2.takeWhile (fun c => c ≠ '#'), none) := by
            unfold splitPath
            rw [hps]
          rw [hap] at h
          dsimp only at h
          cases hpa : parseAuthority (rest2.takeWhile (fun c => c ≠ '#')) with
          | none =>
              rw [hpa] at h
              exact absurd h (by simp)
          | some hp2 =>
          obtain ⟨host, port⟩ := hp2
          rw [hpa] at h
          dsimp only at h
          obtain rfl := Option.some.inj h
          obtain ⟨f1, f2, f3, f4, f5, f6, f7⟩ :=
            hostFacts hpa hwsAll hnfsub hbqq (splitOnFirst_eq_none.1 hps) hnfh
          exact
            { scheme_ex := ⟨scheme, rfl, hv⟩
              host_ne := f1
              host_colon := f2
              host_slash := f3
              host_query := f4
              host_hash := f5
              host_ws := f6
              port_digits := f7
              path_shape := Or.inl rfl
              path_query := List.not_mem_nil _
              path_hash := List.not_mem_nil _
              path_ws := by intro c hc; exact absurd hc (List.not_mem_nil _)
              search_shape := Or.inl rfl
              search_hash := List.not_mem_nil _
              search_ws := by intro c hc; exact absurd hc (List.not_mem_nil _) }
      | some at2 =>
          obtain ⟨a2, t⟩ := at2
          have hap : splitPath (rest2.takeWhile (fun c => c ≠ '#'))
              = (a2, some t) := by
            unfold splitPath
            rw [hps]
          rw [hap] at h
          dsimp only at h
          obtain ⟨hB, ha2sl⟩ := splitOnFirst_eq_some hps
          have ha2sub : ∀ c ∈ a2, c ∈ input := by
            intro c hc
            exact hnfsub c (by rw [hB]; exact List.mem_append.2 (Or.inl hc))
          have htsub : ∀ c ∈ t, c ∈ rest2.takeWhile (fun c => c ≠ '#') := by
            intro c hc
            rw [hB]
            simp [hc]
          have ha2q : '?' ∉ a2 := fun hm =>
            hbqq (by rw [hB]; exact List.mem_append.2 (Or.inl hm))
          have ha2h : '#' ∉ a2 := fun hm =>
            hnfh (by rw [hB]; exact List.mem_append.2 (Or.inl hm))
          cases hpa : parseAuthority a2 with
          | none =>
              rw [hpa] at h
              exact absurd h (by simp)
          | some hp2 =>
          obtain ⟨host, port⟩ := hp2
          rw [hpa] at h
          dsimp only at h
          obtain rfl := Option.some.inj h
          obtain ⟨f1, f2, f3, f4, f5, f6, f7⟩ :=
            hostFacts hpa hwsAll ha2sub ha2q ha2sl ha2h
          have hslq : ('/' : Char) ≠ '?' := by decide
          have hslh : ('/' : Char) ≠ '#' := by decide
          have hslw : isWS '/' = false := by decide
          exact
            { scheme_ex := ⟨scheme, rfl, hv⟩
              host_ne := f1
              host_colon := f2
              host_slash := f3
              host_query := f4
              host_hash := f5
              host_ws := f6
              port_digits := f7
              path_shape := Or.inr ⟨t, rfl⟩
              path_query := by
                intro hm
                rcases List.mem_cons.1 hm with hm | hm
                · exact hslq hm.symm
                · exact hbqq (htsub _ hm)
              path_hash := by
                intro hm
                rcases List.mem_cons.1 hm with hm | hm
                · exact hslh hm.symm
                · exact hnfh (htsub _ hm)
              path_ws := by
                intro c hc
                rcases List.mem_cons.1 hc with hm | hm
                · rw [hm]; exact hslw
                · exact hwsAll c (hnfsub c (htsub _ hm))
              search_shape := Or.inl rfl
              search_hash := List.not_mem_nil _
              search_ws := by intro c hc; exact absurd hc (List.not_mem_nil _) }
  | some bqp =>
      obtain ⟨bqa, q⟩ := bqp
      have hbq : splitQuery (rest2.takeWhile (fun c => c ≠ '#'))
          = (bqa, some q) := by
        unfold splitQuery
        rw [hqs]
      rw [hbq] at h
      dsimp only at h
      obtain ⟨hnfeq, hbqaq⟩ := splitOnFirst_eq_some hqs
      have hbqasub : ∀ c ∈ bqa, c ∈ input := by
        intro c hc
        exact hnfsub c (by rw [hnfeq]; exact List.mem_append.2 (Or.inl hc))
      have hbqah : '#' ∉ bqa := fun hm =>
        hnfh (by rw [hnfeq]; exact List.mem_append.2 (Or.inl hm))
      have hqsub : ∀ c ∈ q, c ∈ rest2.takeWhile (fun c => c ≠ '#') := by
        intro c hc
        rw [hnfeq]
        simp [hc]
      have hqmq : ('?' : Char) ≠ '#' := by decide
      have hqmw : isWS '?' = false := by decide
      have hslq : ('/' : Char) ≠ '?' := by decide
      have hslh : ('/' : Char) ≠ '#' := by decide
      have hslw : isWS '/' = false := by decide
      have hsearchFacts : ∀ q1 (qs : List Char), q = q1 :: qs →
          ('#' ∉ '?' :: q ∧ (∀ c ∈ '?' :: q, isWS c = false)) := by
        intro q1 qs hq
        constructor
        · intro hm
          rcases List.mem_cons.1 hm with hm | hm
          · exact hqmq hm.symm
          · exact hnfh (hqsub _ hm)
        · intro c hc
          rcases List.mem_cons.1 hc with hm | hm
          · rw [hm]; exact hqmw
          · exact hwsAll c (hnfsub c (hqsub _ hm))
      cases hps : splitOnFirst '/' bqa with
      | none =>
          have hap : splitPath bqa = (bqa, none) := by
            unfold splitPath
            rw [hps]
          rw [hap] at h
          dsimp only at h
          have hbqasl : '/' ∉ bqa := splitOnFirst_eq_none.1 hps
          cases hpa : parseAuthority bqa with
          | none =>
              rw [hpa] at h
              exact absurd h (by simp)
          | some hp2 =>
          obtain ⟨host, port⟩ := hp2
          rw [hpa] at h
          dsimp only at h
          obtain ⟨f1, f2, f3, f4, f5, f6, f7⟩ :=
            hostFacts hpa hwsAll hbqasub hbqaq hbqasl hbqah
          cases q with
          | nil =>
              obtain rfl := Option.some.inj h
              exact
                { scheme_ex := ⟨scheme, rfl, hv⟩
                  host_ne := f1
                  host_colon := f2
                  host_slash := f3
                  host_query := f4
                  host_hash := f5
                  host_ws := f6
                  port_digits := f7
                  path_shape := Or.inl rfl
                  path_query := List.not_mem_nil _
                  path_hash := List.not_mem_nil _
                  path_ws := by intro c hc; exact absurd hc (List.not_mem_nil _)
                  search_shape := Or.inl rfl
                  search_hash := List.not_mem_nil _
                  search_ws := by
                    intro c hc
                    exact absurd hc (List.not_mem_nil _) }
          | cons q1 qs =>
              obtain rfl := Option.some.inj h
              obtain ⟨g1, g2⟩ := hsearchFacts q1 qs rfl
              exact
                { scheme_ex := ⟨scheme, rfl, hv⟩
                  host_ne := f1
                  host_colon := f2
                  host_slash := f3
                  host_query := f4
                  host_hash := f5
                  host_ws := f6
                  port_digits := f7
                  path_shape := Or.inl rfl
                  path_query := List.not_mem_nil _
                  path_hash := List.not_mem_nil _
                  path_ws := by intro c hc; exact absurd hc (List.not_mem_nil _)
                  search_shape := Or.inr ⟨q1 :: qs, List.cons_ne_nil _ _, rfl⟩
                  search_hash := g1
                  search_ws := g2 }
      | some at2 =>
          obtain ⟨a2, t⟩ := at2
          have hap : splitPath bqa = (a2, some t) := by
            unfold splitPath
            rw [hps]
          rw [hap] at h
          dsimp only at h
          obtain ⟨hBeq, ha2sl⟩ := splitOnFirst_eq_some hps
          have ha2sub : ∀ c ∈ a2, c ∈ input := by
            intro c hc
            exact hbqasub c (by rw [hBeq]; exact List.mem_append.2 (Or.inl hc))
          have htsub : ∀ c ∈ t, c ∈ bqa := by
            intro c hc
            rw [hBeq]
            simp [hc]
          have ha2q : '?' ∉ a2 := fun hm =>
            hbqaq (by rw [hBeq]; exact List.mem_append.2 (Or.inl hm))
          have ha2h : '#' ∉ a2 := fun hm =>
            hbqah (by rw [hBeq]; exact List.mem_append.2 (Or.inl hm))
          cases hpa : parseAuthority a2 with
          | none =>
              rw [hpa] at h
              exact absurd h (by simp)
          | some hp2 =>
          obtain ⟨host, port⟩ := hp2
          rw [hpa] at h
          dsimp only at h
          obtain ⟨f1, f2, f3, f4, f5, f6, f7⟩ :=
            hostFacts hpa hwsAll ha2sub ha2q ha2sl ha2h
          have hpath_query : '?' ∉ '/' :: t := by
            intro hm
            rcases List.mem_cons.1 hm with hm | hm
            · exact hslq hm.symm
            · exact hbqaq (htsub _ hm)
          have hpath_hash : '#' ∉ '/' :: t := by
            intro hm
            rcases List.mem_cons.1 hm with hm | hm
            · exact hslh hm.symm
            · exact hbqah (htsub _ hm)
          have hpath_ws : ∀ c ∈ '/' :: t, isWS c = false := by
            intro c hc
            rcases List.mem_cons.1 hc with hm | hm
            · rw [hm]; exact hslw
            · exact hwsAll c (hbqasub c (htsub _ hm))
          cases q with
          | nil =>
              obtain rfl := Option.some.inj h
              exact
                { scheme_ex := ⟨scheme, rfl, hv⟩
                  host_ne := f1
                  host_colon := f2
                  host_slash := f3
                  host_query := f4
                  host_hash := f5
                  host_ws := f6
                  port_digits := f7
                  path_shape := Or.inr ⟨t, rfl⟩
                  path_query := hpath_query
                  path_hash := hpath_hash
                  path_ws := hpath_ws
                  search_shape := Or.inl rfl
                  search_hash := List.not_mem_nil _
                  search_ws := by
                    intro c hc
                    exact absurd hc (List.not_mem_nil _) }
          | cons q1 qs =>
              obtain rfl := Option.some.inj h
              obtain ⟨g1, g2⟩ := hsearchFacts q1 qs rfl
              exact
                { scheme_ex := ⟨scheme, rfl, hv⟩
                  host_ne := f1
                  host_colon := f2
                  host_slash := f3
                  host_query := f4
                  host_hash := f5
                  host_ws := f6
                  port_digits := f7
                  path_shape := Or.inr ⟨t, rfl⟩
                  path_query := hpath_query
                  path_hash := hpath_hash
                  path_ws := hpath_ws
                  search_shape := Or.inr ⟨q1 :: qs, List.cons_ne_nil _ _, rfl⟩
                  search_hash := g1
                  search_ws := g2 }


/-- Lower-casing preserves letters. -/
theorem isAsciiAlpha_lowerChar {c : Char} (h : isAsciiAlpha c = true) :
    isAsciiAlpha (lowerChar c) = true := by
  have hr : (65 ≤ c.toNat ∧ c.toNat ≤ 90) ∨ (97 ≤ c.toNat ∧ c.toNat ≤ 122) := by
    simpa [isAsciiAlpha] using h
  have h1 := lowerChar_toNat c
  simp only [isAsciiAlpha, decide_eq_true_eq]
  rcases hr with h2 | h2
  · rw [if_pos (by omega)] at h1
    omega
  · rw [if_neg (by omega)] at h1
    omega

/-- Lower-casing preserves scheme characters. -/
theorem isSchemeChar_lowerChar {c : Char} (h : isSchemeChar c = true) :
    isSchemeChar (lowerChar c) = true := by
  have hn : isAsciiAlpha c = true ∨ isAsciiDigit c = true ∨ c = '+' ∨
      c = '-' ∨ c = '.' := by
    simpa [isSchemeChar] using h
  simp only [isSchemeChar, decide_eq_true_eq]
  rcases hn with h1 | h1 | rfl | rfl | rfl
  · exact Or.inl (isAsciiAlpha_lowerChar h1)
  · have h2 : 48 ≤ c.toNat ∧ c.toNat ≤ 57 := by simpa [isAsciiDigit] using h1
    rw [lowerChar_eq_self (by omega)]
    exact Or.inr (Or.inl h1)
  · rw [lowerChar_eq_self (by intro hcc; have e : ('+' : Char).toNat = 43 := rfl; omega)]
    exact Or.inr (Or.inr (Or.inl rfl))
  · rw [lowerChar_eq_self (by intro hcc; have e : ('-' : Char).toNat = 45 := rfl; omega)]
    exact Or.inr (Or.inr (Or.inr (Or.inl rfl)))
  · rw [lowerChar_eq_self (by intro hcc; have e : ('.' : Char).toNat = 46 := rfl; omega)]
    exact Or.inr (Or.inr (Or.inr (Or.inr rfl)))

/-- Lower-casing preserves scheme validity. -/
theorem validScheme_lowerChars {s : List Char} (h : validScheme s = true) :
    validScheme (lowerChars s) = true := by
  cases s with
  | nil => simp [validScheme] at h
  | cons c cs =>
      simp only [validScheme, Bool.and_eq_true, List.all_eq_true] at h
      have hmap : lowerChars (c :: cs) = lowerChar c :: lowerChars cs := rfl
      rw [hmap]
      simp only [validScheme, Bool.and_eq_true, List.all_eq_true]
      constructor
      · exact isAsciiAlpha_lowerChar h.1
      · intro d hd
        obtain ⟨d0, hd0, rfl⟩ := List.mem_map.1 hd
        exact isSchemeChar_lowerChar (h.2 d0 hd0)

/-- The normalized components of well-formed parts are well-formed. -/
theorem WF_normParts {p : URLParts} (wf : WF p) : WF (normParts p) := by
  obtain ⟨s, hs, hv⟩ := wf.scheme_ex
  have hcolonLow : lowerChar ':' = ':' :=
    lowerChar_eq_self (by intro hcc; have e : (':' : Char).toNat = 58 := rfl; omega)
  refine
    { scheme_ex := ⟨lowerChars s, ?_, validScheme_lowerChars hv⟩
      host_ne := ?_
      host_colon := ?_
      host_slash := ?_
      host_query := ?_
      host_hash := ?_
      host_ws := ?_
      port_digits := ?_
      path_shape := ?_
      path_query := ?_
      path_hash := ?_
      path_ws := ?_
      search_shape := ?_
      search_hash := ?_
      search_ws := ?_ }
  · show lowerChars p.protocol = lowerChars s ++ [':']
    rw [hs, lowerChars_append]
    simp [lowerChars, hcolonLow]
  · show lowerChars p.hostname ≠ []
    simp only [lowerChars, ne_eq, List.map_eq_nil_iff]
    exact wf.host_ne
  · show ':' ∉ lowerChars p.hostname
    rw [mem_lowerChars_low (by decide)]
    exact wf.host_colon
  · show '/' ∉ lowerChars p.hostname
    rw [mem_lowerChars_low (by decide)]
    exact wf.host_slash
  · show '?' ∉ lowerChars p.hostname
    rw [mem_lowerChars_low (by decide)]
    exact wf.host_query
  · show '#' ∉ lowerChars p.hostname
    rw [mem_lowerChars_low (by decide)]
    exact wf.host_hash
  · show ∀ c ∈ lowerChars p.hostname, isWS c = false
    intro c hc
    obtain ⟨c0, hc0, rfl⟩ := List.mem_map.1 hc
    rw [isWS_lowerChar]
    exact wf.host_ws c0 hc0
  · show (dropDefaultPort (lowerChars p.protocol) p.port).all isAsciiDigit = true
    unfold dropDefaultPort
    split
    · rfl
    · exact wf.port_digits
  · show (if p.pathname = [] then "/".data else p.pathname) = [] ∨
      ∃ t, (if p.pathname = [] then "/".data else p.pathname) = '/' :: t
    by_cases hp : p.pathname = []
    · rw [if_pos hp]
      exact Or.inr ⟨[], rfl⟩
    · rw [if_neg hp]
      rcases wf.path_shape with h0 | h0
      · exact absurd h0 hp
      · exact Or.inr h0
  · show '?' ∉ (if p.pathname = [] then "/".data else p.pathname)
    by_cases hp : p.pathname = []
    · rw [if_pos hp]
      decide
    · rw [if_neg hp]
      exact wf.path_query
  · show '#' ∉ (if p.pathname = [] then "/".data else p.pathname)
    by_cases hp : p.pathname = []
    · rw [if_pos hp]
      decide
    · rw [if_neg hp]
      exact wf.path_hash
  · show ∀ c ∈ (if p.pathname = [] then "/".data else p.pathname), isWS c = false
    by_cases hp : p.pathname = []
    · rw [if_pos hp]
      intro c hc
      obtain rfl : c = '/' := by simpa using hc
      decide
    · rw [if_neg hp]
      exact wf.path_ws
  · exact wf.search_shape
  · exact wf.search_hash
  · exact wf.search_ws


/-- Dropping the default port twice equals dropping it once. -/
theorem dropDefaultPort_idem (prot port : List Char) :
    dropDefaultPort prot (dropDefaultPort prot port)
      = dropDefaultPort prot port := by
  by_cases hc : (prot = "http:".data ∧ port = "80".data) ∨
      (prot = "https:".data ∧ port = "443".data)
  · rw [show dropDefaultPort prot port = [] from by
      unfold dropDefaultPort; rw [if_pos hc]]
    unfold dropDefaultPort
    rw [if_neg (by simp)]
  · rw [show dropDefaultPort prot port = port from by
      unfold dropDefaultPort; rw [if_neg hc]]
    unfold dropDefaultPort
    rw [if_neg hc]

/-- Component normalization is idempotent. -/
theorem normParts_idem (p : URLParts) : normParts (normParts p) = normParts p := by
  unfold normParts
  dsimp only
  rw [lowerChars_idem, lowerChars_idem, dropDefaultPort_idem]
  congr 1
  by_cases hp : p.pathname = []
  · rw [if_pos hp, if_neg (by decide)]
  · rw [if_neg hp, if_neg hp]

/-- The renderer is the raw reassembly of the normalized components. -/
theorem render_eq_rawAssemble (p : URLParts) :
    renderNormalizedChars p = rawAssemble (normParts p) := by
  simp only [renderNormalizedChars, rawAssemble, normParts]


/-- Parsing an assembled hierarchical reference recovers its well-formed
components exactly. -/
theorem parse_assembled
    (s host port path search : List Char)
    (hv : validScheme s = true)
    (hostne : host ≠ []) (hostco : ':' ∉ host) (hostsl : '/' ∉ host)
    (hostq : '?' ∉ host) (hosth : '#' ∉ host)
    (hostws : ∀ c ∈ host, isWS c = false)
    (hd : port.all isAsciiDigit = true)
    (hpath : path = [] ∨ ∃ t, path = '/' :: t)
    (hpathq : '?' ∉ path) (hpathh : '#' ∉ path)
    (hpathws : ∀ c ∈ path, isWS c = false)
    (hsearch : search = [] ∨ ∃ t, t ≠ [] ∧ search = '?' :: t)
    (hsearchh : '#' ∉ search)
    (hsearchws : ∀ c ∈ search, isWS c = false) :
    parseURLChars (s ++ ':' :: ('/' :: '/' ::
        (host ++ (if port = [] then [] else ':' :: port) ++ path ++ search)))
      = some ⟨s ++ [':'], host, port, path, search⟩ := by
  have hschar : ∀ c ∈ s, isSchemeChar c = true := validScheme_chars hv
  have hscolon : ':' ∉ s := fun hm => (schemeChar_safe (hschar _ hm)).1 rfl
  have hportFacts : ∀ c ∈ (if port = [] then ([] : List Char) else ':' :: port),
      c = ':' ∨ isAsciiDigit c = true := by
    intro c hc
    by_cases hp : port = []
    · rw [if_pos hp] at hc
      exact absurd hc (List.not_mem_nil _)
    · rw [if_neg hp] at hc
      rcases List.mem_cons.1 hc with rfl | hm
      · exact Or.inl rfl
      · right
        rw [List.all_eq_true] at hd
        exact hd c hm
  have hportq : '?' ∉ (if port = [] then ([] : List Char) else ':' :: port) := by
    intro hm
    rcases hportFacts _ hm with he | hdg
    · exact absurd he (by decide)
    · exact (digit_safe hdg).2.2.1 rfl
  have hporth : '#' ∉ (if port = [] then ([] : List Char) else ':' :: port) := by
    intro hm
    rcases hportFacts _ hm with he | hdg
    · exact absurd he (by decide)
    · exact (digit_safe hdg).2.2.2.1 rfl
  have hportsl : '/' ∉ (if port = [] then ([] : List Char) else ':' :: port) := by
    intro hm
    rcases hportFacts _ hm with he | hdg
    · exact absurd he (by decide)
    · exact (digit_safe hdg).2.1 rfl
  have hportws : ∀ c ∈ (if port = [] then ([] : List Char) else ':' :: port),
      isWS c = false := by
    intro c hm
    rcases hportFacts _ hm with rfl | hdg
    · decide
    · exact (digit_safe hdg).2.2.2.2
  have hTh : '#' ∉ host ++ (if port = [] then [] else ':' :: port) ++ path ++ search := by
    intro hm
    simp only [List.mem_append, or_assoc] at hm
    rcases hm with hm | hm | hm | hm
    · exact hosth hm
    · exact hporth hm
    · exact hpathh hm
    · exact hsearchh hm
  have hTws : ∀ c ∈ host ++ (if port = [] then [] else ':' :: port) ++ path ++ search,
      isWS c = false := by
    intro c hm
    simp only [List.mem_append, or_assoc] at hm
    rcases hm with hm | hm | hm | hm
    · exact hostws c hm
    · exact hportws c hm
    · exact hpathws c hm
    · exact hsearchws c hm
  have hws : ∀ c ∈ s ++ ':' :: ('/' :: '/' ::
      (host ++ (if port = [] then [] else ':' :: port) ++ path ++ search)),
      isWS c = false := by
    intro c hc
    simp only [List.mem_append, List.mem_cons] at hc
    rcases hc with hc | rfl | rfl | rfl | hc
    · exact (schemeChar_safe (hschar _ hc)).2.2.2.2
    · decide
    · decide
    · decide
    · rcases hc with ((hm | hm) | hm) | hm
      · exact hostws c hm
      · exact hportws c hm
      · exact hpathws c hm
      · exact hsearchws c hm
  unfold parseURLChars
  rw [if_neg (by
    intro hany
    obtain ⟨c, hc, hct⟩ := List.any_eq_true.1 hany
    rw [hws c hc] at hct
    exact Bool.noConfusion hct)]
  rw [splitOnFirst_append _ hscolon]
  dsimp only
  rw [if_pos hv]
  rw [show stripSlashSlash ('/' :: '/' ::
      (host ++ (if port = [] then [] else ':' :: port) ++ path ++ search))
    = some (host ++ (if port = [] then [] else ':' :: port) ++ path ++ search) from by
    unfold stripSlashSlash
    simp]
  dsimp only
  rw [takeWhile_of_all (by
    intro c hc
    simp only [decide_eq_true_eq]
    exact fun he => hTh (he ▸ hc))]
  rcases hsearch with rfl | ⟨qq, hqqne, rfl⟩
  · -- no query
    rw [List.append_nil]
    have hTq : '?' ∉ host ++ (if port = [] then [] else ':' :: port) ++ path := by
      intro hm
      simp only [List.mem_append, or_assoc] at hm
      rcases hm with hm | hm | hm
      · exact hostq hm
      · exact hportq hm
      · exact hpathq hm
    rw [show splitQuery (host ++ (if port = [] then [] else ':' :: port) ++ path)
        = (host ++ (if port = [] then [] else ':' :: port) ++ path, none) from by
      unfold splitQuery
      rw [splitOnFirst_eq_none.2 hTq]]
    dsimp only
    rcases hpath with rfl | ⟨t, rfl⟩
    · -- no path
      rw [List.append_nil]
      have hAsl : '/' ∉ host ++ (if port = [] then [] else ':' :: port) := by
        intro hm
        rcases List.mem_append.1 hm with hm | hm
        · exact hostsl hm
        · exact hportsl hm
      rw [show splitPath (host ++ (if port = [] then [] else ':' :: port))
          = (host ++ (if port = [] then [] else ':' :: port), none) from by
        unfold splitPath
        rw [splitOnFirst_eq_none.2 hAsl]]
      dsimp only
      rw [parseAuthority_assemble hostne hostco hd]
    · -- path '/' :: t
      have hAsl : '/' ∉ host ++ (if port = [] then [] else ':' :: port) := by
        intro hm
        rcases List.mem_append.1 hm with hm | hm
        · exact hostsl hm
        · exact hportsl hm
      rw [show host ++ (if port = [] then [] else ':' :: port) ++ '/' :: t
          = (host ++ (if port = [] then [] else ':' :: port)) ++ '/' :: t from by
        simp [List.append_assoc]]
      rw [show splitPath ((host ++ (if port = [] then [] else ':' :: port)) ++ '/' :: t)
          = (host ++ (if port = [] then [] else ':' :: port), some t) from by
        unfold splitPath
        rw [splitOnFirst_append _ hAsl]]
      dsimp only
      rw [parseAuthority_assemble hostne hostco hd]
  · -- query '?' :: qq with qq nonempty
    have hPq : '?' ∉ host ++ (if port = [] then [] else ':' :: port) ++ path := by
      intro hm
      simp only [List.mem_append, or_assoc] at hm
      rcases hm with hm | hm | hm
      · exact hostq hm
      · exact hportq hm
      · exact hpathq hm
    rw [show host ++ (if port = [] then [] else ':' :: port) ++ path ++ '?' :: qq
        = (host ++ (if port = [] then [] else ':' :: port) ++ path) ++ '?' :: qq from by
      simp [List.append_assoc]]
    rw [show splitQuery ((host ++ (if port = [] then [] else ':' :: port) ++ path) ++ '?' :: qq)
        = (host ++ (if port = [] then [] else ':' :: port) ++ path, some qq) from by
      unfold splitQuery
      rw [splitOnFirst_append _ hPq]]
    dsimp only
    rcases qq with _ | ⟨q1, qs⟩
    · exact absurd rfl hqqne
    rcases hpath with rfl | ⟨t, rfl⟩
    · -- no path
      rw [List.append_nil]
      have hAsl : '/' ∉ host ++ (if port = [] then [] else ':' :: port) := by
        intro hm
        rcases List.mem_append.1 hm with hm | hm
        · exact hostsl hm
        · exact hportsl hm
      rw [show splitPath (host ++ (if port = [] then [] else ':' :: port))
          = (host ++ (if port = [] then [] else ':' :: port), none) from by
        unfold splitPath
        rw [splitOnFirst_eq_none.2 hAsl]]
      dsimp only
      rw [parseAuthority_assemble hostne hostco hd]
    · -- path '/' :: t
      have hAsl : '/' ∉ host ++ (if port = [] then [] else ':' :: port) := by
        intro hm
        rcases List.mem_append.1 hm with hm | hm
        · exact hostsl hm
        · exact hportsl hm
      rw [show host ++ (if port = [] then [] else ':' :: port) ++ '/' :: t
          = (host ++ (if port = [] then [] else ':' :: port)) ++ '/' :: t from by
        simp [List.append_assoc]]
      rw [show splitPath ((host ++ (if port = [] then [] else ':' :: port)) ++ '/' :: t)
          = (host ++ (if port = [] then [] else ':' :: port), some t) from by
        unfold splitPath
        rw [splitOnFirst_append _ hAsl]]
      dsimp only
      rw [parseAuthority_assemble hostne hostco hd]


/-- Reparsing the raw reassembly of well-formed components recovers them
exactly. -/
theorem parse_rawAssemble {q : URLParts} (wf : WF q) :
    parseURLChars (rawAssemble q) = some q := by
  obtain ⟨qprotocol, qhostname, qport, qpathname, qsearch⟩ := q
  obtain ⟨s, hs, hv⟩ := wf.scheme_ex
  dsimp only at hs
  subst hs
  have hform : rawAssemble ⟨s ++ [':'], qhostname, qport, qpathname, qsearch⟩
      = s ++ ':' :: ('/' :: '/' :: (qhostname ++
          (if qport = [] then [] else ':' :: qport) ++ qpathname ++ qsearch)) := by
    unfold rawAssemble
    dsimp only
    simp [List.append_assoc]
  rw [hform]
  exact parse_assembled s qhostname qport qpathname qsearch hv
    wf.host_ne wf.host_colon wf.host_slash wf.host_query wf.host_hash
    wf.host_ws wf.port_digits wf.path_shape wf.path_query wf.path_hash
    wf.path_ws wf.search_shape wf.search_hash wf.search_ws

/-- Whatever the parser accepts is whitespace-free. -/
theorem parseURLChars_noWS {l : List Char} {p : URLParts}
    (h : parseURLChars l = some p) : ∀ c ∈ l, isWS c = false := by
  unfold parseURLChars at h
  by_cases hws : l.any isWS = true
  · rw [if_pos hws] at h
    exact absurd h (by simp)
  · intro c hc
    by_contra hcc
    exact hws (List.any_eq_true.2 ⟨c, hc, by simpa using hcc⟩)

/-- The raw reassembly of well-formed components contains the scheme's
colon. -/
theorem colon_mem_rawAssemble {q : URLParts} (wf : WF q) :
    ':' ∈ rawAssemble q := by
  obtain ⟨s, hs, _⟩ := wf.scheme_ex
  unfold rawAssemble
  rw [hs]
  simp

/-- cleanString leaves a nonempty, whitespace-free string containing a
colon untouched. -/
theorem cleanString_fix {l : List Char} (hne : l ≠ [])
    (hws : ∀ c ∈ l, isWS c = false) (hcolon : ':' ∈ l) :
    cleanString (some ⟨l⟩) = some ⟨l⟩ := by
  have h1 : (⟨l⟩ : String) ≠ "" := fun h => hne (congrArg String.data h)
  have h2 : trimJS ⟨l⟩ = ⟨l⟩ := by
    unfold trimJS
    rw [show (String.mk l).data = l from rfl, trimChars_of_noWS hws]
  have h3 : ¬(trimJS ⟨l⟩ = "" ∨ toLowerJS (trimJS ⟨l⟩) = "undefined") := by
    rw [h2]
    rintro (h | h)
    · exact h1 h
    · have hmem : ':' ∈ lowerChars l := (mem_lowerChars_low (by decide) l).2 hcolon
      have hdata : lowerChars l = "undefined".data := by
        have := congrArg String.data h
        simpa [toLowerJS] using this
      rw [hdata] at hmem
      exact absurd hmem (by decide)
  unfold cleanString
  dsimp only
  rw [if_neg h1, if_neg h3, h2]


/-- Underlying characters of a literal-built string. -/
theorem data_mk (l : List Char) : (String.mk l).data = l := rfl

/-- The spec-side reassembly agrees with the renderer embedded from the
code. -/
theorem specNormalizedForm_eq_render (p : URLParts) :
    specNormalizedForm p = ⟨renderNormalizedChars p⟩ := by
  apply String.ext
  unfold specNormalizedForm renderNormalizedChars dropDefaultPort
  dsimp only
  have e1 : (toLowerJS ⟨p.protocol⟩ = "http:")
      = (lowerChars p.protocol = "http:".data) := propext String.ext_iff
  have e2 : (toLowerJS ⟨p.protocol⟩ = "https:")
      = (lowerChars p.protocol = "https:".data) := propext String.ext_iff
  have e3 : ((⟨p.port⟩ : String) = "80") = (p.port = "80".data) :=
    propext String.ext_iff
  have e4 : ((⟨p.port⟩ : String) = "443") = (p.port = "443".data) :=
    propext String.ext_iff
  have e5 : ((⟨p.port⟩ : String) = "") = (p.port = []) :=
    propext String.ext_iff
  have e6 : ((⟨p.pathname⟩ : String) = "") = (p.pathname = []) :=
    propext String.ext_iff
  simp only [e1, e2, e3, e4, e5, e6]
  by_cases hcond : (lowerChars p.protocol = "http:".data ∧ p.port = "80".data) ∨
      (lowerChars p.protocol = "https:".data ∧ p.port = "443".data)
  · rw [if_pos hcond, if_pos hcond, if_pos rfl]
    by_cases hpath : p.pathname = []
    · rw [if_pos hpath, if_pos hpath]
      simp [String.data_append, toLowerJS]
    · rw [if_neg hpath, if_neg hpath]
      simp [String.data_append, toLowerJS]
  · rw [if_neg hcond, if_neg hcond]
    simp only [e5]
    by_cases hport : p.port = []
    · rw [if_pos hport, if_pos hport]
      by_cases hpath : p.pathname = []
      · rw [if_pos hpath, if_pos hpath]
        simp [String.data_append, toLowerJS]
      · rw [if_neg hpath, if_neg hpath]
        simp [String.data_append, toLowerJS]
    · rw [if_neg hport, if_neg hport]
      by_cases hpath : p.pathname = []
      · rw [if_pos hpath, if_pos hpath]
        simp [String.data_append, toLowerJS]
      · rw [if_neg hpath, if_neg hpath]
        simp [String.data_append, toLowerJS]

/-! ## Claim theorems -/

/-- C3: parseCloudflareMetadata maps every falsy input to the empty
structure, maps a string input whose JSON parse succeeds with a non-null
object to exactly that parsed value, and maps a string input whose JSON
parse throws to the empty structure; being a total Lean function, it can
propagate no exception. -/
theorem parseMetadata_dispatch (jsonParse : String → Option JsValue) :
    (∀ raw, isFalsy raw = true →
        parseCloudflareMetadata jsonParse raw = emptyMetadata)
    ∧ (∀ s v, s ≠ "" → jsonParse s = some v → isNonNullObject v = true →
        parseCloudflareMetadata jsonParse (JsValue.str s) = v)
    ∧ (∀ s, jsonParse s = none →
        parseCloudflareMetadata jsonParse (JsValue.str s) = emptyMetadata) := by
  refine ⟨?_, ?_, ?_⟩
  · intro raw h
    simp [parseCloudflareMetadata, h]
  · intro s v hs hp hobj
    have hf : isFalsy (JsValue.str s) = false := by simp [isFalsy, hs]
    simp [parseCloudflareMetadata, hf, hp, hobj]
  · intro s hp
    by_cases hs : s = ""
    · subst hs
      simp [parseCloudflareMetadata, isFalsy, emptyMetadata]
    · have hf : isFalsy (JsValue.str s) = false := by simp [isFalsy, hs]
      simp [parseCloudflareMetadata, hf, hp]

/-- C3 witness: the dispatch at concrete inputs — null metadata, a JSON
array string, and an unparsable string. -/
theorem parseMetadata_dispatch_witness :
    parseCloudflareMetadata sampleJsonParse JsValue.null = emptyMetadata
    ∧ parseCloudflareMetadata sampleJsonParse (JsValue.str "[1]")
        = JsValue.arr [JsValue.num 1]
    ∧ parseCloudflareMetadata sampleJsonParse (JsValue.str "oops")
        = emptyMetadata :=
  ⟨(parseMetadata_dispatch sampleJsonParse).1 JsValue.null rfl,
   (parseMetadata_dispatch sampleJsonParse).2.1 "[1]" _ (by decide) rfl rfl,
   (parseMetadata_dispatch sampleJsonParse).2.2 "oops" rfl⟩

/-- C2 counterexample: parseCloudflareMetadata returns a non-null object
input as-is, retaining the key "evil" even though it is outside the
allow-list — the claimed key allow-listing does not happen on this
path. -/
theorem parseMetadata_keeps_unknown_keys_cex :
    parseCloudflareMetadata sampleJsonParse
        (JsValue.obj [("folder", JsValue.str "art"), ("evil", JsValue.str "x")])
      = JsValue.obj [("folder", JsValue.str "art"), ("evil", JsValue.str "x")]
    ∧ ¬ ("evil" ∈ CLOUDFLARE_METADATA_FIELDS) :=
  ⟨rfl, by decide⟩

/-- C2 (amended): parseCloudflareMetadata returns every non-null object
input structurally as-is, with all its keys retained; the key
allow-listing is performed only by the companion pickCloudflareMetadata,
whose output carries exclusively allow-listed keys. -/
theorem parseMetadata_object_passthrough (jsonParse : String → Option JsValue)
    (fields : List (String × JsValue)) :
    parseCloudflareMetadata jsonParse (JsValue.obj fields) = JsValue.obj fields
    ∧ ∀ kv ∈ pickCloudflareMetadata fields,
        kv.1 ∈ CLOUDFLARE_METADATA_FIELDS := by
  constructor
  · simp [parseCloudflareMetadata, isFalsy]
  · intro kv hkv
    rcases mem_pickFold fields CLOUDFLARE_METADATA_FIELDS [] kv hkv with h | h
    · exact absurd h (List.not_mem_nil _)
    · exact h

/-- C2 witness: the passthrough and the pick allow-listing at a concrete
object. -/
theorem parseMetadata_object_passthrough_witness :
    parseCloudflareMetadata sampleJsonParse
        (JsValue.obj [("folder", JsValue.str "art")])
      = JsValue.obj [("folder", JsValue.str "art")]
    ∧ ("folder", JsValue.str "art").1 ∈ CLOUDFLARE_METADATA_FIELDS :=
  ⟨(parseMetadata_object_passthrough sampleJsonParse
      [("folder", JsValue.str "art")]).1,
   (parseMetadata_object_passthrough sampleJsonParse
      [("folder", JsValue.str "art")]).2 ("folder", JsValue.str "art")
      (List.mem_singleton_self _)⟩

/-- C10: a candidate filename normalizing to the empty string makes
findDuplicatesByFilename return the empty list for every cache snapshot,
including snapshots whose images also normalize to the empty name. -/
theorem findByFilename_emptyQuery_empty (images : List CachedCloudflareImage)
    (filename : String) (h : normalizeName (some filename) = "") :
    findDuplicatesByFilename images filename = [] := by
  simp [findDuplicatesByFilename, h]

/-- C10 witness: a whitespace-only query against a snapshot containing an
image whose own filename normalizes to the empty string. -/
theorem findByFilename_emptyQuery_empty_witness :
    normalizeName (some "   ") = ""
    ∧ normalizeName (some blankNameImage.filename) = normalizeName (some "   ")
    ∧ findDuplicatesByFilename [blankNameImage] "   " = [] :=
  ⟨by decide, by decide,
   findByFilename_emptyQuery_empty [blankNameImage] "   " (by decide)⟩

/-- C6 counterexample: the cached image's normalized filename equals the
normalized candidate, yet the candidate, being whitespace-only, yields
the empty list — contradicting the claim that every candidate returns
exactly the normalized-equal images. -/
theorem findByFilename_blank_cex :
    normalizeName (some blankNameImage.filename) = normalizeName (some "  ")
    ∧ blankNameImage ∈ [blankNameImage]
    ∧ findDuplicatesByFilename [blankNameImage] "  " = [] :=
  ⟨by decide, by decide, by decide⟩

/-- C6 (amended): for every candidate filename whose trimmed lower-cased
form is nonempty, findDuplicatesByFilename returns exactly the cached
images whose trimmed lower-cased filename equals it; a candidate
normalizing to the empty string yields the empty list instead. -/
theorem findByFilename_exact (images : List CachedCloudflareImage)
    (filename : String) (h : normalizeName (some filename) ≠ "") :
    ∀ img, img ∈ findDuplicatesByFilename images filename ↔
      img ∈ images ∧
        normalizeName (some img.filename) = normalizeName (some filename) := by
  intro img
  simp [findDuplicatesByFilename, h, List.mem_filter]

/-- C6 witness: the query "photo.png" returns both "Photo.PNG" and
"photo.png " (trailing space). -/
theorem findByFilename_exact_witness :
    normalizeName (some "photo.png") ≠ ""
    ∧ photoUpper ∈ findDuplicatesByFilename [photoUpper, photoTrailing] "photo.png"
    ∧ photoTrailing ∈
        findDuplicatesByFilename [photoUpper, photoTrailing] "photo.png" :=
  ⟨by decide,
   (findByFilename_exact [photoUpper, photoTrailing] "photo.png" (by decide)
      photoUpper).2 ⟨by decide, by decide⟩,
   (findByFilename_exact [photoUpper, photoTrailing] "photo.png" (by decide)
      photoTrailing).2 ⟨by decide, by decide⟩⟩

/-- C1 counterexample: a candidate carrying the upper-case "SHA256:" tag
in front of the 64 upper-case hex characters of a cached image's
lower-case content hash yields the empty list — the prefix is not
stripped, so the claimed match does not happen. -/
theorem findByContentHash_sha256Tag_cex :
    hashImage.contentHash = some hashLower
    ∧ isHex64 hashLower = true
    ∧ findDuplicatesByContentHash [hashImage] hashTagged = [] :=
  ⟨rfl, by decide, by decide⟩

/-- C1 (amended): findDuplicatesByContentHash normalizes a candidate by
trimming and lower-casing only — no algorithm prefix is stripped — and
validates that the result is exactly 64 hex characters; an invalid
candidate (including any candidate with a "sha256:" prefix, which can
never be 64 hex characters) yields the empty list, and a valid candidate
returns exactly the cached images whose normalized contentHash equals
the normalized candidate. -/
theorem findByContentHash_exact (images : List CachedCloudflareImage)
    (contentHash : String) :
    (normalizeHash (some contentHash) = none →
      findDuplicatesByContentHash images contentHash = [])
    ∧ (∀ n, normalizeHash (some contentHash) = some n →
        ∀ img, img ∈ findDuplicatesByContentHash images contentHash ↔
          img ∈ images ∧ normalizeHash img.contentHash = some n) := by
  constructor
  · intro h
    simp [findDuplicatesByContentHash, h, strFalsy]
  · intro n h img
    have hne : n ≠ "" := normalizeHash_ne_empty h
    simp [findDuplicatesByContentHash, h, strFalsy, hne, List.mem_filter]

/-- C1 witness: a plain 64-hex candidate matches the cached image whose
stored hash is the same digest. -/
theorem findByContentHash_exact_witness :
    normalizeHash (some hashLower) = some hashLower
    ∧ (hashImage ∈ findDuplicatesByContentHash [hashImage] hashLower ↔
        hashImage ∈ [hashImage]
          ∧ normalizeHash hashImage.contentHash = some hashLower) :=
  ⟨by decide,
   (findByContentHash_exact [hashImage] hashLower).2 hashLower (by decide)
     hashImage⟩

/-- C7: a candidate URL whose normalization is defined makes
findDuplicatesByOriginalUrl return exactly the cached images whose
stored originalUrlNormalized — or, when that field is absent, the
just-in-time normalization of their raw originalUrl — equals the
normalized candidate; a candidate whose normalization is undefined
yields the empty list. -/
theorem findByOriginalUrl_exact (images : List CachedCloudflareImage)
    (originalUrl : String) :
    (normalizeOriginalUrl (some originalUrl) = none →
      findDuplicatesByOriginalUrl images originalUrl = [])
    ∧ (∀ n, normalizeOriginalUrl (some originalUrl) = some n →
        ∀ img, img ∈ findDuplicatesByOriginalUrl images originalUrl ↔
          img ∈ images ∧ existingNormalized img = some n) := by
  constructor
  · intro h
    simp [findDuplicatesByOriginalUrl, h, strFalsy]
  · intro n h img
    have hne : n ≠ "" := normalizeOriginalUrl_ne_empty h
    simp [findDuplicatesByOriginalUrl, h, strFalsy, hne, List.mem_filter]

/-- C7 witness: a candidate differing from the stored normalized URL only
in case and an explicit default port matches the cached image. -/
theorem findByOriginalUrl_exact_witness :
    normalizeOriginalUrl (some "HTTPS://Dup.Example.com:443/img.png")
      = some "https://dup.example.com/img.png"
    ∧ (urlImage ∈
        findDuplicatesByOriginalUrl [urlImage] "HTTPS://Dup.Example.com:443/img.png" ↔
          urlImage ∈ [urlImage]
            ∧ existingNormalized urlImage = some "https://dup.example.com/img.png") :=
  ⟨by decide,
   (findByOriginalUrl_exact [urlImage] "HTTPS://Dup.Example.com:443/img.png").2
     "https://dup.example.com/img.png" (by decide) urlImage⟩

/-- C8: a forced refresh whose gateway call fails propagates the error to
the forcing caller and leaves the populated snapshot unchanged, and a
subsequent non-forced read still returns the pre-existing entries even
when the gateway keeps failing. -/
theorem forcedRefresh_failure_failSoft (jsonParse : String → Option JsValue)
    (st : CacheState) (images : List CachedCloudflareImage)
    (h : st.snapshot = some images) (e e₂ : GatewayError) (now now₂ : Nat) :
    getImages jsonParse true (.error e) now st = (st, .error e)
    ∧ (getImages jsonParse false (.error e₂) now₂ st).2 = .ok images := by
  constructor
  · simp [getImages, h, refreshCache]
  · by_cases hst : st.lastRefreshedAt + st.ttl < now₂
    · simp [getImages, h, refreshCache, hst]
    · simp [getImages, h, refreshCache, hst]

/-- C8 witness: the UpstreamError(500, "boom") scenario against a
previously populated cache. -/
theorem forcedRefresh_failure_failSoft_witness :
    populatedState.snapshot = some [plainImage]
    ∧ getImages sampleJsonParse true
        (.error (GatewayError.upstreamError 500 "boom")) 100 populatedState
      = (populatedState, .error (GatewayError.upstreamError 500 "boom"))
    ∧ (getImages sampleJsonParse false
        (.error (GatewayError.upstreamError 500 "boom")) 200 populatedState).2
      = .ok [plainImage] :=
  ⟨rfl,
   (forcedRefresh_failure_failSoft sampleJsonParse populatedState [plainImage]
      rfl (GatewayError.upstreamError 500 "boom")
      (GatewayError.upstreamError 500 "boom") 100 200).1,
   (forcedRefresh_failure_failSoft sampleJsonParse populatedState [plainImage]
      rfl (GatewayError.upstreamError 500 "boom")
      (GatewayError.upstreamError 500 "boom") 100 200).2⟩

/-- C9: any positive number of concurrent refresh requests arriving
before the in-flight refresh completes invokes the gateway's listAll
exactly once, with every caller attached to that single flight. -/
theorem concurrentRefresh_singleFlight (n : Nat) (h : 0 < n) :
    (arrivals n initialFlight).listAllCalls = 1
    ∧ (arrivals n initialFlight).attached = n := by
  obtain ⟨m, rfl⟩ : ∃ m, n = m + 1 := ⟨n - 1, by omega⟩
  rw [arrivals]
  have h1 : requestRefresh initialFlight
      = { inFlight := true, listAllCalls := 1, attached := 1 } := rfl
  rw [h1, arrivals_of_inFlight m _ rfl]
  exact ⟨rfl, by simp [Nat.add_comm]⟩

/-- C9 witness: ten concurrent callers cause exactly one listAll
invocation. -/
theorem concurrentRefresh_singleFlight_witness :
    0 < 10 ∧ ((arrivals 10 initialFlight).listAllCalls = 1
      ∧ (arrivals 10 initialFlight).attached = 10) :=
  ⟨by decide, concurrentRefresh_singleFlight 10 (by decide)⟩

/-- C5: normalizeOriginalUrl is idempotent — applying it to any of its
own defined outputs returns that output unchanged. -/
theorem normalizeUrl_idempotent (u r : String)
    (h : normalizeOriginalUrl (some u) = some r) :
    normalizeOriginalUrl (some r) = some r := by
  unfold normalizeOriginalUrl at h
  cases hc : cleanString (some u) with
  | none =>
      rw [hc] at h
      exact absurd h (by simp)
  | some c =>
      rw [hc] at h
      dsimp only at h
      cases hp : parseURLChars c.data with
      | none =>
          rw [hp] at h
          exact absurd h (by simp)
      | some p =>
          rw [hp] at h
          dsimp only at h
          obtain rfl : (⟨renderNormalizedChars p⟩ : String) = r := Option.some.inj h
          have wf := parseURLChars_wf hp
          have wfn := WF_normParts wf
          have hR : renderNormalizedChars p = rawAssemble (normParts p) :=
            render_eq_rawAssemble p
          have hparse : parseURLChars (rawAssemble (normParts p))
              = some (normParts p) := parse_rawAssemble wfn
          have hwsfree : ∀ ch ∈ rawAssemble (normParts p), isWS ch = false :=
            parseURLChars_noWS hparse
          have hne : rawAssemble (normParts p) ≠ [] := by
            intro h0
            have h1 := renderNormalizedChars_ne_nil p
            rw [hR] at h1
            exact h1 h0
          have hcolon : ':' ∈ rawAssemble (normParts p) :=
            colon_mem_rawAssemble wfn
          unfold normalizeOriginalUrl
          rw [hR, cleanString_fix hne hwsfree hcolon]
          dsimp only
          rw [hparse]
          dsimp only
          rw [render_eq_rawAssemble (normParts p), normParts_idem]

/-- C4: normalizeOriginalUrl is total and never throws; an input that
cleans to absent or fails to parse as an absolute URL yields none, and a
parsed input yields the spec's reassembly scheme://host[:port]path[?query]
with scheme and host lower-cased, a default port dropped, the path
defaulting to '/', and the fragment dropped; in particular
"HTTP://Example.com:80/a?x=1" normalizes to
"http://example.com/a?x=1". -/
theorem normalizeUrl_characterization (value : String) :
    (cleanString (some value) = none → normalizeOriginalUrl (some value) = none)
    ∧ (∀ c, cleanString (some value) = some c → parseURLChars c.data = none →
        normalizeOriginalUrl (some value) = none)
    ∧ (∀ c p, cleanString (some value) = some c → parseURLChars c.data = some p →
        normalizeOriginalUrl (some value) = some (specNormalizedForm p))
    ∧ normalizeOriginalUrl (some "HTTP://Example.com:80/a?x=1")
        = some "http://example.com/a?x=1" := by
  refine ⟨?_, ?_, ?_, by decide⟩
  · intro h
    unfold normalizeOriginalUrl
    rw [h]
  · intro c h hp
    unfold normalizeOriginalUrl
    rw [h]
    dsimp only
    rw [hp]
  · intro c p h hp
    unfold normalizeOriginalUrl
    rw [h]
    dsimp only
    rw [hp]
    dsimp only
    rw [specNormalizedForm_eq_render]

/-- C4 witness: the characterization applied at a cleaned-to-absent
input, an unparsable input, and the concrete example. -/
theorem normalizeUrl_characterization_witness :
    normalizeOriginalUrl (some "   ") = none
    ∧ normalizeOriginalUrl (some "notaurl") = none
    ∧ normalizeOriginalUrl (some "HTTP://Example.com:80/a?x=1")
        = some (specNormalizedForm
            ⟨"HTTP:".data, "Example.com".data, "80".data, "/a".data, "?x=1".data⟩) :=
  ⟨(normalizeUrl_characterization "   ").1 (by decide),
   (normalizeUrl_characterization "notaurl").2.1 "notaurl" (by decide) (by decide),
   (normalizeUrl_characterization "HTTP://Example.com:80/a?x=1").2.2.1
     "HTTP://Example.com:80/a?x=1"
     ⟨"HTTP:".data, "Example.com".data, "80".data, "/a".data, "?x=1".data⟩
     (by decide) (by decide)⟩

/-- C5 witness: idempotence at a concrete URL whose normalization keeps
an explicit non-default port. -/
theorem normalizeUrl_idempotent_witness :
    normalizeOriginalUrl (some "HTTPS://WWW.Example.ORG:8080/Path/Img.PNG?v=2")
      = some "https://www.example.org:8080/Path/Img.PNG?v=2"
    ∧ normalizeOriginalUrl (some "https://www.example.org:8080/Path/Img.PNG?v=2")
      = some "https://www.example.org:8080/Path/Img.PNG?v=2" :=
  ⟨by decide,
   normalizeUrl_idempotent "HTTPS://WWW.Example.ORG:8080/Path/Img.PNG?v=2"
     "https://www.example.org:8080/Path/Img.PNG?v=2" (by decide)⟩

end CFI
